import Mathlib

/-!
Verification development for the SF building-permit aggregation pipeline
(`main.py`): record normalization, unit-delta computation, the site-key
deduplication heuristic, aggregation (total and monthly series), the
pagination loop, and the driver's empty-result failure path.

The embedding is shallow:

* a pandas `Timestamp` is modelled by its calendar month index together
  with its position inside that month (real timestamps are ordered first
  by month, then within the month, so this pair under lexicographic order
  is order-isomorphic to the timestamps themselves, and `to_period("M")`
  is the first projection);
* a data-frame row is a `Record`; missing cells (`NaN` / `NaT`) are
  `Option.none`;
* `sort_values` is modelled by insertion sort over the same comparator
  (pandas' default quicksort is unstable, so the order of tied rows is
  unspecified in the source; every theorem below depends only on
  sortedness and permutation, never on the placement of ties);
* `int(...)` truncation is the identity because unit counts are integers.
-/

/-! ### Three-way comparators

pandas compares column values with the usual total orders; we build the
multi-column sort key of `dedupe_reasonably` from `Ordering`-valued
comparators composed lexicographically with `compareLex`, and prove them
lawful in the sense of `Batteries.TransCmp`. -/

/-- Three-way comparison of integers, the order pandas uses on numeric
columns. -/
def cmpInt (a b : Int) : Ordering :=
  if a < b then Ordering.lt else if b < a then Ordering.gt else Ordering.eq

/-- Comparator obtained by comparing the images under a projection. -/
def cmpOn {α β : Type} (f : α → β) (c : β → β → Ordering) : α → α → Ordering :=
  fun a b => c (f a) (f b)

/-- Lexicographic comparison of lists, the order Python uses on strings
viewed as sequences of characters. -/
def cmpList {α : Type} (c : α → α → Ordering) : List α → List α → Ordering
  | [], [] => Ordering.eq
  | [], _ :: _ => Ordering.lt
  | _ :: _, [] => Ordering.gt
  | a :: as, b :: bs => (c a b).then (cmpList c as bs)

/-- Characters compare by code point, as in Python. -/
def cmpChar : Char → Char → Ordering :=
  cmpOn (fun ch => (ch.toNat : Int)) cmpInt

/-- Python string comparison: lexicographic by code point. -/
def cmpStr : String → String → Ordering :=
  cmpOn String.data (cmpList cmpChar)

theorem cmpInt_eq_gt_iff {a b : Int} : cmpInt a b = Ordering.gt ↔ b < a := by
  unfold cmpInt
  split_ifs <;> simp <;> omega

theorem cmpInt_ne_gt_iff {a b : Int} : cmpInt a b ≠ Ordering.gt ↔ a ≤ b := by
  unfold cmpInt
  split_ifs <;> simp <;> omega

theorem cmpInt_eq_eq_iff {a b : Int} : cmpInt a b = Ordering.eq ↔ a = b := by
  unfold cmpInt
  split_ifs <;> simp <;> omega

instance : Batteries.TransCmp cmpInt where
  symm a b := by
    unfold cmpInt
    split_ifs <;> simp [Ordering.swap] <;> omega
  le_trans {a b c} h1 h2 := by
    unfold cmpInt at h1 h2 ⊢
    split_ifs at h1 h2 ⊢ <;> simp_all <;> omega

instance {α β : Type} (f : α → β) (c : β → β → Ordering) [h : Batteries.TransCmp c] :
    Batteries.TransCmp (cmpOn f c) where
  symm a b := h.symm (f a) (f b)
  le_trans h1 h2 := h.le_trans h1 h2

theorem cmpList_symm {α : Type} (c : α → α → Ordering) [h : Batteries.OrientedCmp c] :
    ∀ as bs, (cmpList c as bs).swap = cmpList c bs as := by
  intro as
  induction as with
  | nil => intro bs; cases bs <;> rfl
  | cons a as ih =>
    intro bs
    cases bs with
    | nil => rfl
    | cons b bs =>
      show ((c a b).then (cmpList c as bs)).swap = (c b a).then (cmpList c bs as)
      rw [Ordering.swap_then, h.symm, ih]

theorem cmpList_le_trans {α : Type} {c : α → α → Ordering} [h : Batteries.TransCmp c] :
    ∀ {as bs cs : List α}, cmpList c as bs ≠ Ordering.gt → cmpList c bs cs ≠ Ordering.gt →
      cmpList c as cs ≠ Ordering.gt := by
  intro as
  induction as with
  | nil => intro bs cs _ _; cases cs <;> simp [cmpList]
  | cons a as ih =>
    intro bs cs h1 h2
    cases bs with
    | nil => simp [cmpList] at h1
    | cons b bs =>
      cases cs with
      | nil => simp [cmpList] at h2
      | cons c0 cs =>
        simp only [cmpList, ne_eq, Ordering.then_eq_gt, not_or, not_and] at h1 h2 ⊢
        refine ⟨h.le_trans h1.1 h2.1, fun e => ?_⟩
        cases hab : c a b with
        | gt => exact absurd hab h1.1
        | eq =>
          refine ih (h1.2 hab) (h2.2 ?_)
          rw [← Batteries.TransCmp.cmp_congr_left hab, e]
        | lt =>
          refine absurd ((Batteries.OrientedCmp.cmp_eq_gt).2 ?_) h2.1
          rw [← Batteries.TransCmp.cmp_congr_left e, hab]

instance {α : Type} (c : α → α → Ordering) [Batteries.TransCmp c] :
    Batteries.TransCmp (cmpList c) where
  symm := cmpList_symm c
  le_trans := cmpList_le_trans

instance : Batteries.TransCmp cmpChar :=
  inferInstanceAs (Batteries.TransCmp (cmpOn (fun ch : Char => (ch.toNat : Int)) cmpInt))

instance : Batteries.TransCmp cmpStr :=
  inferInstanceAs (Batteries.TransCmp (cmpOn String.data (cmpList cmpChar)))

/-! ### Timestamps and records -/

/-- A timezone-aware pandas timestamp, represented by its calendar month
(months since year 0, in the Pacific zone after `coerce_dates` converts)
and its position within that month. Real timestamps are ordered first by
month and then within the month, so the lexicographic order on this pair
is the timestamp order, and `dt.to_period("M")` is the `month` field. -/
structure Timestamp where
  month : Int
  frac : Int
deriving DecidableEq

/-- Timestamp comparison: by month, then by position within the month. -/
def cmpTs : Timestamp → Timestamp → Ordering :=
  compareLex (cmpOn Timestamp.month cmpInt) (cmpOn Timestamp.frac cmpInt)

instance : Batteries.TransCmp cmpTs :=
  inferInstanceAs
    (Batteries.TransCmp (compareLex (cmpOn Timestamp.month cmpInt) (cmpOn Timestamp.frac cmpInt)))

/-- The timestamp order `a <= b`. -/
def tsLe (a b : Timestamp) : Prop := cmpTs a b ≠ Ordering.gt

instance : DecidableRel tsLe :=
  fun a b => inferInstanceAs (Decidable (cmpTs a b ≠ Ordering.gt))

/-- The fixed cutoff `SINCE = dt.datetime(2023, 1, 1, tzinfo=Pacific)`:
month index of 2023-01 (months since year 0), at the very start of the
month. -/
def SINCE : Timestamp := { month := 2023 * 12, frac := 0 }

/-- One data-frame row, after the typed fields relevant to the pipeline
have been extracted. `proposed_units` / `existing_units` hold the raw
cells (`none` = missing), `completed_date` holds the instant parsed by
`coerce_dates` (`none` = absent cell or unparseable value, i.e. `NaT`),
and `new_units` / `apn` are the derived columns that
`compute_new_units` fills in. -/
structure Record where
  permit_number : String := ""
  block : String := ""
  lot : String := ""
  street_number : String := ""
  proposed_units : Option String := none
  existing_units : Option String := none
  completed_date : Option Timestamp := none
  new_units : Int := 0
  apn : String := ""
deriving DecidableEq

/-- Cell parser behind `pd.to_numeric(..., errors="coerce")` on the unit
columns: the digits of a decimal integer literal, else `NaN` (`none`).
Unit counts in the source are integer-formatted strings. -/
def digitsVal : List Char → Option Nat
  | [] => none
  | cs =>
    if cs.all Char.isDigit then
      some (cs.foldl (fun n ch => n * 10 + (ch.toNat - 48)) 0)
    else none

/-- Parse an optionally signed decimal integer string; any other shape
coerces to `NaN` (`none`). -/
def parseIntStr (s : String) : Option Int :=
  match s.data with
  | '-' :: rest => (digitsVal rest).map (fun n => -(n : Int))
  | cs => (digitsVal cs).map (fun n => (n : Int))

/-- Numeric coercion of a cell that may be missing: missing stays
missing, a non-numeric string becomes `NaN` (`none`). -/
def toNumeric : Option String → Option Int
  | none => none
  | some s => parseIntStr s

/-- Model of `compute_new_units`: coerce the unit columns to numbers,
fill missing with 0 and subtract, and derive `apn` as the string
concatenation `str(block) + "/" + str(lot)`. -/
def compute_new_units (r : Record) : Record :=
  { r with
    new_units := (toNumeric r.proposed_units).getD 0 - (toNumeric r.existing_units).getD 0,
    apn := r.block ++ "/" ++ r.lot }

/-! ### The Deduplicator -/

/-- The dedup grouping key of a row: `(apn, street_number)`. -/
def siteKey (r : Record) : String × String := (r.apn, r.street_number)

/-- Comparator of the `sort_values` call in `dedupe_reasonably`:
`["apn", "street_number", "sort_key", "completed_date"]` with
`ascending=[True, True, False, False]`. The `sort_key` column equals
`new_units` (`new_units` is never `NaN`, so `fillna(0)` is the
identity on it). A missing `completed_date` sorts last
(`na_position="last"`), after every real date. -/
def cmpDateDesc : Option Timestamp → Option Timestamp → Ordering
  | none, none => Ordering.eq
  | none, some _ => Ordering.gt
  | some _, none => Ordering.lt
  | some a, some b => cmpTs b a

instance : Batteries.TransCmp cmpDateDesc where
  symm a b := by
    cases a with
    | none => cases b <;> rfl
    | some ta =>
      cases b with
      | none => rfl
      | some tb =>
        show (cmpTs tb ta).swap = cmpTs ta tb
        exact Batteries.OrientedCmp.symm tb ta
  le_trans {a b c} h1 h2 := by
    cases a with
    | none =>
      cases b with
      | none => exact h2
      | some tb => exact absurd rfl h1
    | some ta =>
      cases c with
      | none => exact fun hh => Ordering.noConfusion hh
      | some tc =>
        cases b with
        | none => exact absurd rfl h2
        | some tb =>
          have h1' : cmpTs tb ta ≠ Ordering.gt := h1
          have h2' : cmpTs tc tb ≠ Ordering.gt := h2
          show cmpTs tc ta ≠ Ordering.gt
          exact Batteries.TransCmp.le_trans h2' h1'

/-- The full row comparator of the sort in `dedupe_reasonably`. -/
def cmpRec : Record → Record → Ordering :=
  compareLex (cmpOn Record.apn cmpStr)
    (compareLex (cmpOn Record.street_number cmpStr)
      (compareLex (flip (cmpOn Record.new_units cmpInt))
        (cmpOn Record.completed_date cmpDateDesc)))

instance : Batteries.TransCmp cmpRec :=
  inferInstanceAs
    (Batteries.TransCmp
      (compareLex (cmpOn Record.apn cmpStr)
        (compareLex (cmpOn Record.street_number cmpStr)
          (compareLex (flip (cmpOn Record.new_units cmpInt))
            (cmpOn Record.completed_date cmpDateDesc)))))

/-- The non-strict row order induced by the sort comparator. -/
def recLE (a b : Record) : Prop := cmpRec a b ≠ Ordering.gt

instance : DecidableRel recLE :=
  fun a b => inferInstanceAs (Decidable (cmpRec a b ≠ Ordering.gt))

instance : IsTrans Record recLE :=
  ⟨fun _ _ _ h1 h2 => Batteries.TransCmp.le_trans h1 h2⟩

instance : IsTotal Record recLE where
  total a b := by
    by_cases h : cmpRec a b = Ordering.gt
    · right
      intro hba
      have hs : (cmpRec a b).swap = cmpRec b a := Batteries.OrientedCmp.symm a b
      rw [h, hba] at hs
      exact absurd hs (by decide)
    · left
      exact h

/-- Model of `drop_duplicates(subset=["apn", "street_number"],
keep="first")`: scan in order, keeping a row exactly when its site key
has not been seen yet. -/
def dropDupFirst : List Record → List (String × String) → List Record
  | [], _ => []
  | r :: rs, seen =>
    if siteKey r ∈ seen then dropDupFirst rs seen
    else r :: dropDupFirst rs (siteKey r :: seen)

/-- Model of `dedupe_reasonably`: keep only rows with `new_units > 0`,
sort by (apn asc, street_number asc, new_units desc, completed_date
desc), and keep the first row of each `(apn, street_number)` group. -/
def dedupe_reasonably (l : List Record) : List Record :=
  dropDupFirst (List.insertionSort recLE (l.filter fun r => decide (0 < r.new_units))) []

/-! ### Properties of the Deduplicator -/

theorem then_ne_gt_left {o₁ o₂ : Ordering} (h : o₁.then o₂ ≠ Ordering.gt) :
    o₁ ≠ Ordering.gt :=
  fun he => h (Ordering.then_eq_gt.2 (Or.inl he))

theorem then_ne_gt_right {o₁ o₂ : Ordering} (h : o₁.then o₂ ≠ Ordering.gt)
    (he : o₁ = Ordering.eq) : o₂ ≠ Ordering.gt :=
  fun hg => h (Ordering.then_eq_gt.2 (Or.inr ⟨he, hg⟩))

theorem recLE_refl (r : Record) : recLE r r := by
  have he : cmpRec r r = Ordering.eq := Batteries.OrientedCmp.cmp_refl
  simp [recLE, he]

/-- Rows at the same site compare by units (descending) and then by
completion date (descending, missing last): unfolding the sort
comparator when the first two key columns tie. -/
theorem recLE_same_site {a b : Record} (h : recLE a b) (hap : a.apn = b.apn)
    (hst : a.street_number = b.street_number) :
    b.new_units ≤ a.new_units ∧
      (b.new_units = a.new_units →
        cmpDateDesc a.completed_date b.completed_date ≠ Ordering.gt) := by
  have h0 : (cmpStr a.apn b.apn).then
      ((cmpStr a.street_number b.street_number).then
        ((cmpInt b.new_units a.new_units).then
          (cmpDateDesc a.completed_date b.completed_date))) ≠ Ordering.gt := h
  have e1 : cmpStr a.apn b.apn = Ordering.eq := by
    rw [hap]
    exact Batteries.OrientedCmp.cmp_refl
  have e2 : cmpStr a.street_number b.street_number = Ordering.eq := by
    rw [hst]
    exact Batteries.OrientedCmp.cmp_refl
  have h2 := then_ne_gt_right (then_ne_gt_right h0 e1) e2
  refine ⟨cmpInt_ne_gt_iff.1 (then_ne_gt_left h2), fun he => ?_⟩
  exact then_ne_gt_right h2 (cmpInt_eq_eq_iff.2 he)

theorem dropDupFirst_subset {l : List Record} {seen : List (String × String)} {x : Record}
    (h : x ∈ dropDupFirst l seen) : x ∈ l := by
  induction l generalizing seen with
  | nil => simp [dropDupFirst] at h
  | cons r rs ih =>
    by_cases hk : siteKey r ∈ seen
    · simp only [dropDupFirst, if_pos hk] at h
      exact List.mem_cons_of_mem r (ih h)
    · simp only [dropDupFirst, if_neg hk, List.mem_cons] at h
      rcases h with h | h
      · simp [h]
      · exact List.mem_cons_of_mem r (ih h)

theorem dropDupFirst_key_not_seen {l : List Record} {seen : List (String × String)}
    {x : Record} (h : x ∈ dropDupFirst l seen) : siteKey x ∉ seen := by
  induction l generalizing seen with
  | nil => simp [dropDupFirst] at h
  | cons r rs ih =>
    by_cases hk : siteKey r ∈ seen
    · simp only [dropDupFirst, if_pos hk] at h
      exact ih h
    · simp only [dropDupFirst, if_neg hk, List.mem_cons] at h
      rcases h with h | h
      · rw [h]
        exact hk
      · have := ih h
        intro hc
        exact this (List.mem_cons_of_mem _ hc)

theorem dropDupFirst_keys_nodup {l : List Record} {seen : List (String × String)} :
    ((dropDupFirst l seen).map siteKey).Nodup := by
  induction l generalizing seen with
  | nil => simp [dropDupFirst]
  | cons r rs ih =>
    by_cases hk : siteKey r ∈ seen
    · simp only [dropDupFirst, if_pos hk]
      exact ih
    · simp only [dropDupFirst, if_neg hk, List.map_cons, List.nodup_cons]
      refine ⟨fun hc => ?_, ih⟩
      rcases List.mem_map.1 hc with ⟨y, hy, hky⟩
      have := dropDupFirst_key_not_seen hy
      rw [hky] at this
      exact this (List.mem_cons_self _ _)

theorem dropDupFirst_covers {l : List Record} {seen : List (String × String)} {x : Record}
    (hx : x ∈ l) (hseen : siteKey x ∉ seen) :
    ∃ y ∈ dropDupFirst l seen, siteKey y = siteKey x := by
  induction l generalizing seen with
  | nil => simp at hx
  | cons r rs ih =>
    rcases List.mem_cons.1 hx with hx | hx
    · subst hx
      simp only [dropDupFirst, if_neg hseen]
      exact ⟨x, List.mem_cons_self _ _, rfl⟩
    · by_cases hk : siteKey r ∈ seen
      · simp only [dropDupFirst, if_pos hk]
        exact ih hx hseen
      · simp only [dropDupFirst, if_neg hk]
        by_cases hkx : siteKey x = siteKey r
        · exact ⟨r, List.mem_cons_self _ _, hkx.symm⟩
        · rcases ih hx (fun hc => (List.mem_cons.1 hc).elim hkx hseen) with ⟨y, hy, hky⟩
          exact ⟨y, List.mem_cons_of_mem r hy, hky⟩

/-- In a sorted list, the row `dropDupFirst` keeps for a site key is
the first of its group, hence below every member of the group in the
sort order. -/
theorem dropDupFirst_first_le {l : List Record} (hs : List.Sorted recLE l) :
    ∀ {seen : List (String × String)} {rep : Record}, rep ∈ dropDupFirst l seen →
      ∀ s ∈ l, siteKey s = siteKey rep → recLE rep s := by
  induction l with
  | nil => intro seen rep hrep; simp [dropDupFirst] at hrep
  | cons r rs ih =>
    rcases List.pairwise_cons.1 hs with ⟨hr, hs'⟩
    intro seen rep hrep s hsmem hkey
    by_cases hk : siteKey r ∈ seen
    · simp only [dropDupFirst, if_pos hk] at hrep
      rcases List.mem_cons.1 hsmem with hsr | hsrs
      · subst hsr
        rw [hkey] at hk
        exact absurd hk (dropDupFirst_key_not_seen hrep)
      · exact ih hs' hrep s hsrs hkey
    · simp only [dropDupFirst, if_neg hk, List.mem_cons] at hrep
      rcases hrep with hrep | hrep
      · subst hrep
        rcases List.mem_cons.1 hsmem with hsr | hsrs
        · subst hsr
          exact recLE_refl _
        · exact hr s hsrs
      · have hne : siteKey rep ≠ siteKey r := by
          have := dropDupFirst_key_not_seen hrep
          intro hc
          exact this (hc ▸ List.mem_cons_self _ _)
        rcases List.mem_cons.1 hsmem with hsr | hsrs
        · subst hsr
          exact absurd (hkey.symm) hne
        · exact ih hs' hrep s hsrs hkey

/-! ### Filtering, aggregation, pagination and the driver -/

/-- The completion-window test of `main`:
`df["completed_date"].notna() & (df["completed_date"] >= SINCE)`.
A `NaT` (missing) completion date fails both conjuncts. -/
def completedGeSince (r : Record) : Bool :=
  match r.completed_date with
  | none => false
  | some d => decide (tsLe SINCE d)

/-- Model of the `df_recent` filter of `main`: first restrict to rows
whose `completed_date` is present and at least the cutoff, then to rows
with `new_units > 0`, exactly as the two filtering statements do. -/
def df_recent (l : List Record) : List Record :=
  (l.filter fun r => r.completed_date.isSome && completedGeSince r).filter
    fun r => decide (0 < r.new_units)

/-- Sum of the `new_units` column, as in `deduped["new_units"].sum()`.
The subsequent `int(...)` cast is the identity here because unit counts
are integers. -/
def sumUnits (l : List Record) : Int :=
  (l.map Record.new_units).sum

/-- The calendar month of a row as produced by
`completed_date.dt.to_period("M")`; `none` when the date is `NaT`. -/
def monthKey (r : Record) : Option Int :=
  r.completed_date.map Timestamp.month

/-- Model of the monthly aggregation of `main`: group the rows by
calendar month of `completed_date` (pandas `groupby` drops rows whose
key is missing), sum `new_units` in each group, and order the series by
ascending month. Months are kept as month indices; the final
`strftime("%Y-%m")` display formatting is injective on them. -/
def monthlySeries (l : List Record) : List (Int × Int) :=
  (List.insertionSort (fun a b : Int => a ≤ b)
      ((l.filterMap monthKey).dedup)).map
    fun mo => (mo, sumUnits (l.filter fun r => decide (monthKey r = some mo)))

/-- The requested page size `PAGE_SIZE = 50000`. -/
def PAGE_SIZE : Nat := 50000

/-- Model of the paging loop of `main`. `f` is the source collaborator:
`f offset` is the page the API returns at that offset (the page
`fetch_page(offset)` yields after its own retries). The loop stops on an
empty page without keeping it, keeps a short non-empty page and stops,
and keeps a full page and continues at `offset + PAGE_SIZE`. The `fuel`
argument bounds the number of iterations so the model is total; every
theorem about the loop steps it one iteration at a time. -/
def pageLoop (f : Nat → List Record) : Nat → Nat → List Record
  | 0, _ => []
  | fuel + 1, offset =>
    let page := f offset
    if page.isEmpty then []
    else if page.length < PAGE_SIZE then page
    else page ++ pageLoop f fuel (offset + PAGE_SIZE)

/-- The per-run rows that reach the Deduplicator: derive the unit
columns on every row, then apply the `df_recent` filters. The column
renaming of `normalize_cols` and the parsing of `coerce_dates` live in
the untyped layer and are reflected in the typed `Record` fields
themselves. -/
def reachDedupe (rows : List Record) : List Record :=
  df_recent (rows.map compute_new_units)

/-- The deduplicated representatives of a run. -/
def processRun (rows : List Record) : List Record :=
  dedupe_reasonably (reachDedupe rows)

/-- The JSON artifacts a successful run writes: the totals artifact
(`total_units` plus the `last_updated` stamp), the monthly artifact, and
the raw audit snapshot. -/
structure Artifacts where
  total_units : Int
  monthly : List (Int × Int)
  last_updated : Int
  raw_snapshot : List Record
deriving DecidableEq

/-- The error message of the empty-result guard in `main`. -/
def noDataMsg : String := "No data returned"

/-- Model of `main`: page through the source, fail the run (raising
`SystemExit`, before any artifact is written) when no rows at all came
back, otherwise normalize, filter, deduplicate, aggregate and emit the
artifacts. `now` is the wall-clock `last_updated` stamp; it influences
nothing but that field. -/
def runMain (f : Nat → List Record) (fuel : Nat) (now : Int) : Except String Artifacts :=
  let all_rows := pageLoop f fuel 0
  if all_rows.isEmpty then Except.error noDataMsg
  else
    Except.ok
      { total_units := sumUnits (processRun all_rows),
        monthly := monthlySeries (processRun all_rows),
        last_updated := now,
        raw_snapshot := all_rows }

/-! ### The Record Normalizer

`normalize_cols` acts on the column names of the raw data frame; rows
are untouched. We model the frame as its column-name list plus its rows
(of an arbitrary row representation), and the three column transforms
as Lean versions of the Python string methods used. -/

/-- A raw data frame: column names plus rows. The row representation is
irrelevant to `normalize_cols`, which only renames columns. -/
structure Frame (ρ : Type) where
  cols : List String
  rows : List ρ

/-- Python `str.strip()`: drop leading and trailing whitespace. -/
def pyStrip (s : String) : String :=
  String.mk (((s.data.dropWhile Char.isWhitespace).reverse.dropWhile Char.isWhitespace).reverse)

/-- Python `c.replace("_", " ")` for the single-character pattern used
here. -/
def pyUnderscoreToSpace (s : String) : String :=
  String.mk (s.data.map fun ch => if ch = '_' then ' ' else ch)

/-- Python `str.title()` on ASCII text: a letter that follows a
non-letter is uppercased, every other letter is lowercased, non-letters
pass through. -/
def pyTitleAux : Bool → List Char → List Char
  | _, [] => []
  | prevAlpha, ch :: cs =>
    if ch.isAlpha then
      (if prevAlpha then ch.toLower else ch.toUpper) :: pyTitleAux true cs
    else ch :: pyTitleAux false cs

/-- Python `str.title()`. -/
def pyTitle (s : String) : String :=
  String.mk (pyTitleAux false s.data)

/-- The `rename` dictionary of `normalize_cols`, verbatim. -/
def renameMap : List (String × String) :=
  [ ("Permit Number", "permit_number"),
    ("Permit Type", "permit_type"),
    ("Permit Type Definition", "permit_type_definition"),
    ("Filed Date", "filed_date"),
    ("Issued Date", "issued_date"),
    ("Completed Date", "completed_date"),
    ("Status", "status"),
    ("Status Date", "status_date"),
    ("Block", "block"),
    ("Lot", "lot"),
    ("Street Number", "street_number"),
    ("Street Name", "street_name"),
    ("Street Suffix", "street_suffix"),
    ("Proposed Use", "proposed_use"),
    ("Existing Use", "existing_use"),
    ("Proposed Units", "proposed_units"),
    ("Existing Units", "existing_units"),
    ("Record ID", "record_id"),
    ("Supervisor District", "supervisor_district"),
    ("Zipcode", "zipcode"),
    ("ADU", "adu") ]

/-- `df.rename(columns=rename)`: a column named in the dictionary is
renamed, every other column is kept unchanged. -/
def applyRename (c : String) : String :=
  (List.lookup c renameMap).getD c

/-- Model of `normalize_cols`: strip each column name, replace
underscores with spaces and title-case, then rename the names the
dictionary knows. The two trailing `if ... : pass` statements of the
source are no-ops and are not modelled. -/
def normalize_cols {ρ : Type} (df : Frame ρ) : Frame ρ :=
  { df with
    cols :=
      ((df.cols.map pyStrip).map fun c => pyTitle (pyUnderscoreToSpace c)).map applyRename }

/-- The canonical lowercase-snake column names, i.e. the values of the
rename dictionary. -/
def canonicalCols : List String :=
  renameMap.map Prod.snd

/-! ### Concrete example data

Rows used by the concrete scenario theorems: the spec's two-record
dedup scenario at site key `("100/200", "455")`, and a single row that
survives the whole pipeline. -/

/-- Scenario record A: `new_units = 3`, completed 2023-05. -/
def recA : Record :=
  { apn := "100/200", street_number := "455", new_units := 3,
    completed_date := some { month := 2023 * 12 + 4, frac := 0 } }

/-- Scenario record B: `new_units = 5`, completed 2023-04. -/
def recB : Record :=
  { apn := "100/200", street_number := "455", new_units := 5,
    completed_date := some { month := 2023 * 12 + 3, frac := 0 } }

/-- A raw row that passes every pipeline filter: 3 proposed units, no
existing units, completed 2023-07. -/
def wrec : Record :=
  { block := "10", lot := "20", street_number := "5",
    proposed_units := some "3",
    completed_date := some { month := 2023 * 12 + 6, frac := 0 } }

/-- The artifacts the driver emits for the one-row source `[wrec]` at
wall-clock stamp 0. -/
def wArtifacts : Artifacts :=
  { total_units := 3,
    monthly := [(2023 * 12 + 6, 3)],
    last_updated := 0,
    raw_snapshot := [wrec] }

/-- A raw frame whose columns are the already-lowercase API keys that
the rename dictionary fails to cover (`record_id`, `adu`) next to two
it does cover. -/
def bugFrame : Frame Unit :=
  { cols := [ "record_id", "adu", "completed_date", "proposed_units"], rows := [] }

/-- A raw frame with a single unknown column. -/
def fooFrame : Frame Unit :=
  { cols := [ "foo_bar"], rows := [] }

/-! ### Helper lemmas about the pipeline -/

theorem mem_dedupe {l : List Record} {r : Record} (h : r ∈ dedupe_reasonably l) :
    r ∈ l ∧ 0 < r.new_units := by
  have h' : r ∈ dropDupFirst
      (List.insertionSort recLE (l.filter fun r => decide (0 < r.new_units))) [] := h
  have h1 := dropDupFirst_subset h'
  rw [List.mem_insertionSort, List.mem_filter, decide_eq_true_eq] at h1
  exact h1

theorem mem_df_recent {l : List Record} {r : Record} (h : r ∈ df_recent l) :
    r ∈ l ∧ (∃ d, r.completed_date = some d ∧ tsLe SINCE d) ∧ 0 < r.new_units := by
  have h2 := List.mem_filter.1 h
  have h1 := List.mem_filter.1 h2.1
  refine ⟨h1.1, ?_, of_decide_eq_true h2.2⟩
  rcases h1 with ⟨-, hb⟩
  cases hcd : r.completed_date with
  | none =>
    rw [Bool.and_eq_true, hcd] at hb
    simp [Option.isSome] at hb
  | some d =>
    refine ⟨d, rfl, ?_⟩
    rw [Bool.and_eq_true] at hb
    have := hb.2
    rw [completedGeSince, hcd] at this
    exact of_decide_eq_true this

theorem sumUnits_nonneg {l : List Record} (h : ∀ r ∈ l, 0 < r.new_units) :
    0 ≤ sumUnits l := by
  induction l with
  | nil => simp [sumUnits]
  | cons r rs ih =>
    have h1 := h r (List.mem_cons_self ..)
    have h2 := ih fun s hs => h s (List.mem_cons_of_mem _ hs)
    simp only [sumUnits, List.map_cons, List.sum_cons] at *
    omega

theorem sumUnits_filter_add (p : Record → Bool) (l : List Record) :
    sumUnits (l.filter p) + sumUnits (l.filter fun r => !(p r)) = sumUnits l := by
  induction l with
  | nil => simp [sumUnits]
  | cons r rs ih =>
    cases h : p r with
    | true =>
      rw [List.filter_cons_of_pos h, List.filter_cons_of_neg (by simp [h])]
      simp only [sumUnits, List.map_cons, List.sum_cons] at *
      omega
    | false =>
      rw [List.filter_cons_of_neg (by simp [h]), List.filter_cons_of_pos (by simp [h])]
      simp only [sumUnits, List.map_cons, List.sum_cons] at *
      omega

theorem runMain_ok {f : Nat → List Record} {fuel : Nat} {now : Int} {a : Artifacts}
    (h : runMain f fuel now = Except.ok a) :
    a.total_units = sumUnits (processRun (pageLoop f fuel 0)) ∧
      a.monthly = monthlySeries (processRun (pageLoop f fuel 0)) := by
  by_cases he : (pageLoop f fuel 0).isEmpty
  · simp [runMain, he] at h
  · simp only [runMain, he, if_neg, Bool.false_eq_true, not_false_eq_true] at h
    have := Except.ok.inj h
    subst this
    exact ⟨rfl, rfl⟩

/-- Summing the per-month group sums over any duplicate-free list of
months that covers every row's month recovers the total sum. -/
theorem groupSums (ks : List Int) (l : List Record) (hnd : ks.Nodup)
    (hcov : ∀ r ∈ l, ∃ mo, monthKey r = some mo ∧ mo ∈ ks) :
    (ks.map fun mo => sumUnits (l.filter fun r => decide (monthKey r = some mo))).sum =
      sumUnits l := by
  induction ks generalizing l with
  | nil =>
    cases l with
    | nil => simp [sumUnits]
    | cons r rs =>
      rcases hcov r (List.mem_cons_self ..) with ⟨mo, -, hmo⟩
      simp at hmo
  | cons k ks ih =>
    rcases List.nodup_cons.1 hnd with ⟨hk, hnd'⟩
    have hpart := sumUnits_filter_add (fun r => decide (monthKey r = some k)) l
    have hmap : ∀ k' ∈ ks,
        sumUnits (l.filter fun r => decide (monthKey r = some k')) =
          sumUnits ((l.filter fun r => !(decide (monthKey r = some k))).filter
            fun r => decide (monthKey r = some k')) := by
      intro k' hk'
      have hkk : k' ≠ k := fun hc => hk (hc ▸ hk')
      rw [List.filter_filter]
      refine congrArg sumUnits (List.filter_congr fun r _ => ?_).symm
      cases hq : decide (monthKey r = some k') with
      | false => simp [hq]
      | true =>
        have hq' := of_decide_eq_true hq
        simp [hq', hkk]
    have hcov' : ∀ r ∈ (l.filter fun r => !(decide (monthKey r = some k))),
        ∃ mo, monthKey r = some mo ∧ mo ∈ ks := by
      intro r hr
      rcases List.mem_filter.1 hr with ⟨hrl, hnk⟩
      rcases hcov r hrl with ⟨mo, hmo, hmem⟩
      refine ⟨mo, hmo, ?_⟩
      rcases List.mem_cons.1 hmem with hmk | hmk
      · subst hmk
        rw [hmo] at hnk
        simp at hnk
      · exact hmk
    have hmapeq :
        (ks.map fun mo => sumUnits (l.filter fun r => decide (monthKey r = some mo))) =
          ks.map fun mo =>
            sumUnits ((l.filter fun r => !(decide (monthKey r = some k))).filter
              fun r => decide (monthKey r = some mo)) :=
      List.map_congr_left hmap
    have hih := ih (l.filter fun r => !(decide (monthKey r = some k))) hnd' hcov'
    rw [List.map_cons, List.sum_cons, hmapeq, hih, hpart]

/-- Conservation between the monthly series and the total: when every
row has a completion date, the per-month sums add up to the overall
sum. -/
theorem monthly_sum_eq (l : List Record) (h : ∀ r ∈ l, r.completed_date.isSome) :
    ((monthlySeries l).map Prod.snd).sum = sumUnits l := by
  unfold monthlySeries
  rw [List.map_map]
  have hperm :
      List.Perm
        ((List.insertionSort (fun a b : Int => a ≤ b) ((l.filterMap monthKey).dedup)).map
          (fun mo => sumUnits (l.filter fun r => decide (monthKey r = some mo))))
        (((l.filterMap monthKey).dedup).map
          (fun mo => sumUnits (l.filter fun r => decide (monthKey r = some mo)))) :=
    (List.perm_insertionSort _ _).map _
  have hsum := hperm.sum_eq
  have hcomp :
      (Prod.snd ∘ fun mo : Int =>
          (mo, sumUnits (l.filter fun r => decide (monthKey r = some mo)))) =
        fun mo : Int => sumUnits (l.filter fun r => decide (monthKey r = some mo)) := rfl
  rw [hcomp, hsum]
  refine groupSums _ l (List.nodup_dedup _) fun r hr => ?_
  cases hcd : r.completed_date with
  | none =>
    have := h r hr
    rw [hcd] at this
    simp at this
  | some d =>
    refine ⟨d.month, by rw [monthKey, hcd]; rfl, ?_⟩
    rw [List.mem_dedup, List.mem_filterMap]
    exact ⟨r, hr, by rw [monthKey, hcd]; rfl⟩

/-- Appending a row without a completion date does not change the rows
that reach the Deduplicator. -/
theorem reachDedupe_append_none {rows : List Record} {r : Record}
    (h : r.completed_date = none) :
    reachDedupe (rows ++ [r]) = reachDedupe rows := by
  have hc : (compute_new_units r).completed_date = none := h
  unfold reachDedupe df_recent
  rw [List.map_append, List.filter_append]
  have hnil : (List.map compute_new_units [r]).filter
      (fun s => s.completed_date.isSome && completedGeSince s) = [] := by
    simp [List.filter, hc]
  rw [hnil, List.append_nil]

theorem count_one_of_nodup {α : Type} [BEq α] [LawfulBEq α] {l : List α} {a : α}
    (hnd : l.Nodup) (ha : a ∈ l) : l.count a = 1 := by
  induction l with
  | nil => simp at ha
  | cons b bs ih =>
    rcases List.nodup_cons.1 hnd with ⟨hb, hnd'⟩
    rcases List.mem_cons.1 ha with rfl | ha'
    · rw [List.count_cons_self, List.count_eq_zero.2 hb]
    · have hne : a ≠ b := fun hc => hb (hc ▸ ha')
      rw [List.count_cons_of_ne hne, ih hnd' ha']

/-! ### The claims -/

/-- C1: over any input whose records all satisfy the Deduplicator's
contract precondition `new_units > 0`, each site key present in the
input gets exactly one representative in the output of
`dedupe_reasonably`, and that representative has `new_units` at least
every other group member's, with equal `new_units` broken in favour of
the later `completed_date`. The spec's concrete two-record scenario is
checked in the witness. -/
theorem dedupe_unique_max (l : List Record) (k : String × String)
    (hpos : ∀ r ∈ l, 0 < r.new_units)
    (hk : ∃ r ∈ l, siteKey r = k) :
    ((dedupe_reasonably l).map siteKey).count k = 1 ∧
      ∀ rep ∈ dedupe_reasonably l, siteKey rep = k →
        ∀ s ∈ l, siteKey s = k →
          s.new_units ≤ rep.new_units ∧
            (s.new_units = rep.new_units →
              ∀ ds dr, s.completed_date = some ds → rep.completed_date = some dr →
                tsLe ds dr) := by
  have hmemsorted : ∀ x : Record,
      x ∈ List.insertionSort recLE (l.filter fun r => decide (0 < r.new_units)) ↔
        x ∈ l ∧ 0 < x.new_units := by
    intro x
    rw [List.mem_insertionSort, List.mem_filter, decide_eq_true_eq]
  constructor
  · rcases hk with ⟨r, hr, hkr⟩
    have hrs : r ∈ List.insertionSort recLE (l.filter fun r => decide (0 < r.new_units)) :=
      (hmemsorted r).2 ⟨hr, hpos r hr⟩
    rcases dropDupFirst_covers hrs (List.not_mem_nil _) with ⟨y, hy, hky⟩
    have hkmem : k ∈ (dedupe_reasonably l).map siteKey := by
      rw [← hkr, ← hky]
      exact List.mem_map_of_mem siteKey hy
    exact count_one_of_nodup dropDupFirst_keys_nodup hkmem
  · intro rep hrep hkrep s hsl hks
    have hrep' : rep ∈ dropDupFirst
        (List.insertionSort recLE (l.filter fun r => decide (0 < r.new_units))) [] := hrep
    have hss : s ∈ List.insertionSort recLE (l.filter fun r => decide (0 < r.new_units)) :=
      (hmemsorted s).2 ⟨hsl, hpos s hsl⟩
    have hsorted := List.sorted_insertionSort recLE (l.filter fun r => decide (0 < r.new_units))
    have hkeysr : siteKey s = siteKey rep := by rw [hks, hkrep]
    have hle := dropDupFirst_first_le hsorted hrep' s hss hkeysr
    have hap : rep.apn = s.apn := (congrArg Prod.fst hkeysr).symm
    have hst : rep.street_number = s.street_number := (congrArg Prod.snd hkeysr).symm
    have hmain := recLE_same_site hle hap hst
    refine ⟨hmain.1, fun he ds dr hds hdr => ?_⟩
    have hdd := hmain.2 he
    rw [hdr, hds] at hdd
    exact hdd

/-- Witness for C1 at the spec's scenario: both scenario records share
site key `("100/200", "455")`; the hypotheses hold, the conclusion
follows from the theorem, and the Deduplicator indeed selects record B,
the one with 5 units despite its earlier completion date. -/
theorem dedupe_unique_max_witness :
    (((dedupe_reasonably [recA, recB]).map siteKey).count ( "100/200", "455") = 1 ∧
      ∀ rep ∈ dedupe_reasonably [recA, recB], siteKey rep = ( "100/200", "455") →
        ∀ s ∈ [recA, recB], siteKey s = ( "100/200", "455") →
          s.new_units ≤ rep.new_units ∧
            (s.new_units = rep.new_units →
              ∀ ds dr, s.completed_date = some ds → rep.completed_date = some dr →
                tsLe ds dr)) ∧
      dedupe_reasonably [recA, recB] = [recB] :=
  ⟨dedupe_unique_max [recA, recB] ( "100/200", "455") (by decide)
      ⟨recB, by decide, by decide⟩,
    by decide⟩

/-- C2: on every successful run, the sum of the `new_units` entries of
the emitted monthly series equals the emitted `total_units` (the sum of
`new_units` over the deduplicated representatives). -/
theorem monthly_conservation (f : Nat → List Record) (fuel : Nat) (now : Int)
    (a : Artifacts) (h : runMain f fuel now = Except.ok a) :
    (a.monthly.map Prod.snd).sum = a.total_units := by
  obtain ⟨ht, hm⟩ := runMain_ok h
  rw [ht, hm]
  refine monthly_sum_eq _ fun r hr => ?_
  have hin := (mem_dedupe hr).1
  rcases (mem_df_recent hin).2.1 with ⟨d, hd, -⟩
  rw [hd]
  rfl

/-- Witness for C2: a one-row source on which the driver emits
artifacts, with the conservation law evaluated on them. -/
theorem monthly_conservation_witness :
    runMain (fun _ => [wrec]) 1 0 = Except.ok wArtifacts ∧
      (wArtifacts.monthly.map Prod.snd).sum = wArtifacts.total_units :=
  ⟨by rfl, monthly_conservation (fun _ => [wrec]) 1 0 wArtifacts (by rfl)⟩

/-- C3 (code slip, evaluated): `normalize_cols` is meant to land every
known field on its canonical lowercase-snake name, and does so for
names like `completed_date` and `proposed_units`; but the raw lowercase
keys `record_id` and `adu` are title-cased to "Record Id" / "Adu" while
the rename dictionary only knows "Record ID" / "ADU", so they stay
title-cased — the two dead `if ... : pass` statements in the source
were meant to fix exactly this. Row count is preserved. -/
theorem normalize_cols_canonical_bug :
    (normalize_cols bugFrame).cols =
      [ "Record Id", "Adu", "completed_date", "proposed_units"] ∧
      ∀ (ρ : Type) (df : Frame ρ), (normalize_cols df).rows.length = df.rows.length :=
  ⟨by decide, fun ρ df => rfl⟩

/-- C4 counterexample: an unknown raw field `foo_bar` is not dropped by
`normalize_cols`; it survives as the (non-canonical) column "Foo Bar",
so the normalized record does expose an unknown field. -/
theorem normalize_keeps_unknown_counterexample :
    (normalize_cols fooFrame).cols = [ "Foo Bar"] ∧
      ¬ ("Foo Bar" ∈ canonicalCols) := by
  constructor
  · decide
  · decide

/-- C4 (amended): `normalize_cols` drops no field at all — every input
column, known or unknown, reappears in the output under its stripped,
title-cased and (when known) renamed name. -/
theorem normalize_cols_keeps_all {ρ : Type} (df : Frame ρ) (c : String) (h : c ∈ df.cols) :
    applyRename (pyTitle (pyUnderscoreToSpace (pyStrip c))) ∈ (normalize_cols df).cols :=
  List.mem_map_of_mem _ (List.mem_map_of_mem _ (List.mem_map_of_mem _ h))

/-- Witness for the amended C4 at a concrete frame with one unknown
column. -/
theorem normalize_cols_keeps_all_witness :
    applyRename (pyTitle (pyUnderscoreToSpace (pyStrip "foo_bar"))) ∈
      (normalize_cols fooFrame).cols :=
  normalize_cols_keeps_all fooFrame "foo_bar" (by decide)

/-- C5: `compute_new_units` always succeeds, defines `new_units` as the
coerced `proposed_units` minus the coerced `existing_units` with a
missing or non-numeric cell contributing 0, and derives `parcel_id`
(`apn`) as the string concatenation `str(block) + "/" + str(lot)`. -/
theorem compute_new_units_spec (r : Record) :
    (compute_new_units r).new_units =
        (toNumeric r.proposed_units).getD 0 - (toNumeric r.existing_units).getD 0 ∧
      (compute_new_units r).apn = r.block ++ "/" ++ r.lot ∧
      (r.proposed_units = none →
        (compute_new_units r).new_units = 0 - (toNumeric r.existing_units).getD 0) ∧
      (∀ s, r.proposed_units = some s → parseIntStr s = none →
        (compute_new_units r).new_units = 0 - (toNumeric r.existing_units).getD 0) ∧
      (r.existing_units = none →
        (compute_new_units r).new_units = (toNumeric r.proposed_units).getD 0) := by
  refine ⟨rfl, rfl, fun h => ?_, fun s hs hps => ?_, fun h => ?_⟩
  · simp [compute_new_units, toNumeric, h]
  · simp [compute_new_units, toNumeric, hs, hps]
  · simp [compute_new_units, toNumeric, h]

/-- Witness for C5 on a record with 7 proposed units, a non-numeric
existing-units cell, and block/lot strings. -/
theorem compute_new_units_spec_witness :
    (compute_new_units
        { block := "100", lot := "200", proposed_units := some "7",
          existing_units := some "n/a" }).new_units = 7 ∧
      (compute_new_units
        { block := "100", lot := "200", proposed_units := some "7",
          existing_units := some "n/a" }).apn = "100/200" := by
  have h := compute_new_units_spec
    { block := "100", lot := "200", proposed_units := some "7",
      existing_units := some "n/a" }
  refine ⟨?_, h.2.1⟩
  rw [h.1]
  decide

/-- C6: a row without a completion date (absent or unparseable, i.e.
`NaT` after `coerce_dates`) contributes nothing to the total or to the
monthly series, whatever its `new_units`; and every row that reaches
the Deduplicator has a present completion date on or after the cutoff
and `new_units > 0`. -/
theorem missing_completed_excluded (rows : List Record) (r : Record)
    (h : r.completed_date = none) :
    sumUnits (processRun (rows ++ [r])) = sumUnits (processRun rows) ∧
      monthlySeries (processRun (rows ++ [r])) = monthlySeries (processRun rows) ∧
      ∀ s ∈ reachDedupe rows,
        (∃ d, s.completed_date = some d ∧ tsLe SINCE d) ∧ 0 < s.new_units := by
  have hr : reachDedupe (rows ++ [r]) = reachDedupe rows := reachDedupe_append_none h
  refine ⟨by rw [processRun, hr, ← processRun], by rw [processRun, hr, ← processRun], ?_⟩
  intro s hs
  have hm := mem_df_recent hs
  exact ⟨hm.2.1, hm.2.2⟩

/-- Witness for C6: appending a completion-date-free row with 9
proposed units to a one-row source changes neither the total nor the
monthly series. -/
theorem missing_completed_excluded_witness :
    sumUnits (processRun ([wrec] ++ [{ proposed_units := some "9" }])) =
        sumUnits (processRun [wrec]) ∧
      monthlySeries (processRun ([wrec] ++ [{ proposed_units := some "9" }])) =
        monthlySeries (processRun [wrec]) ∧
      ∀ s ∈ reachDedupe [wrec],
        (∃ d, s.completed_date = some d ∧ tsLe SINCE d) ∧ 0 < s.new_units :=
  missing_completed_excluded [wrec] { proposed_units := some "9" } rfl

/-- C7: when paging returns no rows at all, the run fails with the
explicit `SystemExit` message and emits no artifacts — the model
reaches the error before any artifact is constructed, mirroring the
`raise` that precedes every file write. -/
theorem emptyRun_fails (f : Nat → List Record) (fuel : Nat) (now : Int)
    (h : pageLoop f fuel 0 = []) :
    runMain f fuel now = Except.error noDataMsg ∧
      ∀ a : Artifacts, runMain f fuel now ≠ Except.ok a := by
  have he : (pageLoop f fuel 0).isEmpty := by rw [h]; rfl
  constructor
  · simp [runMain, he]
  · intro a
    simp [runMain, he]

/-- Witness for C7: a source that returns an empty first page. -/
theorem emptyRun_fails_witness :
    pageLoop (fun _ => []) 1 0 = [] ∧
      runMain (fun _ => []) 1 0 = Except.error noDataMsg :=
  ⟨rfl, (emptyRun_fails (fun _ => []) 1 0 rfl).1⟩

/-- C8: two runs over the identical source (same pages in the same
order) emit the same `total_units` and the same monthly series; only
the `last_updated` wall-clock stamp can differ between them. -/
theorem run_deterministic_up_to_timestamp (f : Nat → List Record) (fuel : Nat)
    (now₁ now₂ : Int) :
    (runMain f fuel now₁).map (fun a => (a.total_units, a.monthly)) =
      (runMain f fuel now₂).map (fun a => (a.total_units, a.monthly)) := by
  by_cases h : (pageLoop f fuel 0).isEmpty <;> simp [runMain, h, Except.map]

/-- C9: the paging loop ends exactly on a page shorter than the
requested page size (an empty page included, which is also not kept),
and on a full page keeps it and continues at the offset advanced by the
page size; kept pages are concatenated in order. -/
theorem pageLoop_step (f : Nat → List Record) (fuel offset : Nat) :
    ((f offset).length < PAGE_SIZE → pageLoop f (fuel + 1) offset = f offset) ∧
      (¬ (f offset).length < PAGE_SIZE →
        pageLoop f (fuel + 1) offset = f offset ++ pageLoop f fuel (offset + PAGE_SIZE)) := by
  by_cases he : (f offset).isEmpty
  · have hnil : f offset = [] := List.isEmpty_iff.1 he
    constructor
    · intro _
      simp [pageLoop, hnil]
    · intro hge
      refine absurd ?_ hge
      rw [hnil]
      decide
  · constructor
    · intro hlt
      simp [pageLoop, he, hlt]
    · intro hge
      simp [pageLoop, he, hge]

/-- Witness for C9: a short page (length 1) ends pagination with just
that page; a full page (length `PAGE_SIZE`) is kept and the loop
continues at the next offset. -/
theorem pageLoop_step_witness :
    (([wrec] : List Record).length < PAGE_SIZE ∧
      pageLoop (fun _ => [wrec]) 1 0 = [wrec]) ∧
      ¬ (List.replicate PAGE_SIZE wrec).length < PAGE_SIZE ∧
        pageLoop (fun _ => List.replicate PAGE_SIZE wrec) 1 0 =
          List.replicate PAGE_SIZE wrec ++
            pageLoop (fun _ => List.replicate PAGE_SIZE wrec) 0 (0 + PAGE_SIZE) := by
  have h1 : ([wrec] : List Record).length < PAGE_SIZE := by decide
  have h2 : ¬ (List.replicate PAGE_SIZE wrec).length < PAGE_SIZE := by
    simp [List.length_replicate]
  exact ⟨⟨h1, (pageLoop_step (fun _ => [wrec]) 0 0).1 h1⟩,
    h2, (pageLoop_step (fun _ => List.replicate PAGE_SIZE wrec) 0 0).2 h2⟩

/-- C10: the Deduplicator re-applies the `new_units > 0` filter itself,
so whatever collection it is handed (pre-filtered or not), every record
it returns has positive `new_units`; consequently the emitted
`total_units` of any run that produces artifacts is nonnegative. -/
theorem dedupe_output_positive (l : List Record) :
    (∀ r ∈ dedupe_reasonably l, 0 < r.new_units) ∧
      ∀ (f : Nat → List Record) (fuel : Nat) (now : Int) (a : Artifacts),
        runMain f fuel now = Except.ok a → 0 ≤ a.total_units := by
  constructor
  · intro r hr
    exact (mem_dedupe hr).2
  · intro f fuel now a ha
    rw [(runMain_ok ha).1]
    exact sumUnits_nonneg fun r hr => (mem_dedupe hr).2

/-- Witness for C10: an input that mixes a zero-unit row with the
scenario records still yields only positive representatives, and the
concrete run on `[wrec]` emits a nonnegative total. -/
theorem dedupe_output_positive_witness :
    (∀ r ∈ dedupe_reasonably [{ apn := "1/1" }, recA, recB], 0 < r.new_units) ∧
      0 ≤ wArtifacts.total_units :=
  ⟨(dedupe_output_positive [{ apn := "1/1" }, recA, recB]).1,
    (dedupe_output_positive []).2 (fun _ => [wrec]) 1 0 wArtifacts (by rfl)⟩
